import Mathlib

/-!
Shallow embedding of the Connect-4 SmartAgent move-evaluation core
(src/exercice3/smart_agent.py).  The 6×7 board is the PettingZoo
observation: two boolean occupancy planes indexed by (row, column),
row 0 at the top, row 5 at the bottom; channel 0 holds the mover's
pieces and channel 1 the opponent's.
-/

def Board : Type := Fin 6 → Fin 7 → Fin 2 → Bool

/-- Reads `board[row, col, ch]`; out-of-range coordinates read as 0
(the scanning loops always test bounds before reading). -/
def cell (b : Board) (row col : Int) (ch : Fin 2) : Bool :=
  if h : 0 ≤ row ∧ row < 6 ∧ 0 ≤ col ∧ col < 7 then
    b ⟨row.toNat, by omega⟩ ⟨col.toNat, by omega⟩ ch
  else false

/-- The assignment `board[row, col, ch] = 1`. -/
def set_cell (b : Board) (row col : Int) (ch : Fin 2) : Board :=
  fun r c k =>
    if ((r : ℕ) : ℤ) = row ∧ ((c : ℕ) : ℤ) = col ∧ k = ch then true else b r c k

/-- The call `observation.copy()`: a private value copy of the board. -/
def board_copy (b : Board) : Board := b

/-- The row values scanned by `range(5, -1, -1)` in `_get_next_row`. -/
def rows_bottom_up : List Int := [5, 4, 3, 2, 1, 0]

/-- `_get_next_row`: scan rows bottom-to-top and return the first whose
two occupancy channels are both empty; `none` models Python's `None`
(column full). -/
def get_next_row (b : Board) (col : Int) : Option Int :=
  rows_bottom_up.find? fun row => !(cell b row col 0) && !(cell b row col 1)

/-- The four direction vectors checked by `_check_win_from_position`. -/
def directions : List (Int × Int) := [(0, 1), (1, 0), (-1, 1), (1, 1)]

/-- One while-loop of `_check_win_from_position`: starting at `(r, c)` and
stepping by `(dr, dc)`, count consecutive cells carrying `ch`; the loop
stops at the grid boundary or at the first cell not set for `ch`.  The
fuel 8 strictly exceeds the longest run the 6×7 grid allows along any of
the direction vectors, so the loop always exits by its own test. -/
def count_dir_aux (b : Board) (ch : Fin 2) (dr dc : Int) : Nat → Int → Int → Nat
  | 0, _, _ => 0
  | fuel + 1, r, c =>
    if cell b r c ch then count_dir_aux b ch dr dc fuel (r + dr) (c + dc) + 1 else 0

/-- The count gathered by one directional while loop of
`_check_win_from_position`, which starts at `(row + dr, col + dc)`. -/
def count_dir (b : Board) (row col dr dc : Int) (ch : Fin 2) : Nat :=
  count_dir_aux b ch dr dc 8 (row + dr) (col + dc)

/-- `_check_win_from_position`: 1 for the placed piece plus the counts of
the two opposite scans; true when some axis total reaches 4. -/
def check_win_from_position (b : Board) (row col : Int) (ch : Fin 2) : Bool :=
  directions.any fun d =>
    decide (4 ≤ 1 + count_dir b row col d.1 d.2 ch + count_dir b row col (-d.1) (-d.2) ch)

/-- The loop body of `_find_winning_move`: columns whose landing row is
`None` are skipped, otherwise a `ch` piece is placed on a private copy
and the alignment test is run there. -/
def is_winning_col (b : Board) (ch : Fin 2) (col : Nat) : Bool :=
  match get_next_row b col with
  | none => false
  | some row => check_win_from_position (set_cell (board_copy b) row col ch) row col ch

/-- `_find_winning_move`: first column of `valid_actions` (in list order)
whose hypothetical placement completes four. -/
def find_winning_move (b : Board) (valid_actions : List Nat) (ch : Fin 2) : Option Nat :=
  valid_actions.find? (is_winning_col b ch)

/-- The inner loop body of `_creates_double_threat`: on the board `bc`
already holding the hypothetical first piece, would dropping a second
`ch` piece into `next_col` complete four?  Full columns are skipped. -/
def second_win_pred (bc : Board) (ch : Fin 2) (next_col : Nat) : Bool :=
  match get_next_row bc next_col with
  | none => false
  | some next_row =>
    check_win_from_position (set_cell (board_copy bc) next_row next_col ch)
      next_row next_col ch

/-- `_creates_double_threat`: place a hypothetical `ch` piece in `col`
(on a private copy), then count over all columns 0..6 of the updated
board the second placements that would complete four; true when that
count reaches 2. -/
def creates_double_threat (b : Board) (col : Nat) (ch : Fin 2) : Bool :=
  match get_next_row b col with
  | none => false
  | some row =>
    decide (2 ≤ (List.range 7).countP
      (second_win_pred (set_cell (board_copy b) row col ch) ch))

/-- `_get_valid_actions`: the columns whose mask entry is set, in
ascending order. -/
def get_valid_actions (action_mask : List Bool) : List Nat :=
  (List.range action_mask.length).filter fun col => action_mask.getD col false

/-- Rule 5's fixed positional preference list. -/
def center_preference : List Nat := [3, 2, 4, 1, 5, 0, 6]

/-- `choose_action`.  `pick` abstracts `random.choice` on a non-empty
list; `none` models the `IndexError` that `random.choice` raises on an
empty one. -/
def choose_action (b : Board) (action_mask : List Bool) (pick : List Nat → Nat) : Option Nat :=
  let valid_actions := get_valid_actions action_mask
  match find_winning_move b valid_actions 0 with
  | some c => some c
  | none =>
    match find_winning_move b valid_actions 1 with
    | some c => some c
    | none =>
      match valid_actions.find? fun col => creates_double_threat b col 0 with
      | some c => some c
      | none =>
        match valid_actions.find? fun col => creates_double_threat b col 1 with
        | some c => some c
        | none =>
          match center_preference.find? fun col => valid_actions.contains col with
          | some c => some c
          | none =>
            match valid_actions with
            | [] => none
            | _ => some (pick valid_actions)

/-- The all-empty board. -/
def empty_board : Board := fun _ _ _ => false

/-! ### Landing-row characterization (C3) -/

/-- The descending list `[n-1, ..., 1, 0]` of integers. -/
def desc_rows : Nat → List Int
  | 0 => []
  | n + 1 => (n : Int) :: desc_rows n

theorem rows_bottom_up_eq : rows_bottom_up = desc_rows 6 := by decide

theorem find?_desc_rows_some (p : Int → Bool) :
    ∀ (n : Nat) (r : Int), (desc_rows n).find? p = some r ↔
      0 ≤ r ∧ r < (n : Int) ∧ p r = true ∧
        ∀ s : Int, r < s → s < (n : Int) → p s = false := by
  intro n
  induction n with
  | zero =>
    intro r
    simp only [desc_rows, List.find?_nil]
    constructor
    · intro h; cases h
    · rintro ⟨h0, h1, -, -⟩
      exfalso; omega
  | succ n ih =>
    intro r
    cases hp : p (n : Int) with
    | true =>
      rw [desc_rows, List.find?_cons_of_pos _ hp]
      constructor
      · intro h
        rw [Option.some_inj] at h
        subst h
        refine ⟨by positivity, by push_cast; omega, hp, ?_⟩
        intro s hs1 hs2
        exfalso
        push_cast at hs2
        omega
      · rintro ⟨h0, h1, hpr, hmax⟩
        have hrn : r = (n : Int) := by
          by_contra hne
          have hlt : r < (n : Int) := by push_cast at h1; omega
          have hfalse := hmax (n : Int) hlt (by push_cast; omega)
          rw [hfalse] at hp
          cases hp
        rw [hrn]
    | false =>
      rw [desc_rows, List.find?_cons_of_neg _ (by simp [hp]), ih r]
      constructor
      · rintro ⟨h0, h1, hpr, hmax⟩
        refine ⟨h0, by push_cast; omega, hpr, ?_⟩
        intro s hs1 hs2
        by_cases hsn : s = (n : Int)
        · rw [hsn, hp]
        · exact hmax s hs1 (by push_cast at hs2 ⊢; omega)
      · rintro ⟨h0, h1, hpr, hmax⟩
        have hrn : r ≠ (n : Int) := by
          intro he
          rw [he, hp] at hpr
          cases hpr
        refine ⟨h0, by push_cast at h1 ⊢; omega, hpr, ?_⟩
        intro s hs1 hs2
        exact hmax s hs1 (by push_cast at hs2 ⊢; omega)

theorem find?_desc_rows_none (p : Int → Bool) :
    ∀ (n : Nat), (desc_rows n).find? p = none ↔
      ∀ r : Int, 0 ≤ r → r < (n : Int) → p r = false := by
  intro n
  induction n with
  | zero =>
    simp only [desc_rows, List.find?_nil]
    constructor
    · intro _ r h0 h1; exfalso; omega
    · intro _; trivial
  | succ n ih =>
    cases hp : p (n : Int) with
    | true =>
      rw [desc_rows, List.find?_cons_of_pos _ hp]
      constructor
      · intro h; cases h
      · intro h
        have := h (n : Int) (by positivity) (by push_cast; omega)
        rw [this] at hp
        cases hp
    | false =>
      rw [desc_rows, List.find?_cons_of_neg _ (by simp [hp]), ih]
      constructor
      · intro h r h0 h1
        by_cases hrn : r = (n : Int)
        · rw [hrn, hp]
        · exact h r h0 (by push_cast at h1 ⊢; omega)
      · intro h r h0 h1
        exact h r h0 (by push_cast at h1 ⊢; omega)

/-- A cell of the column is empty when neither occupancy channel is set. -/
theorem empty_pred_true (b : Board) (col r : Int) :
    ((!cell b r col 0 && !cell b r col 1) = true) ↔
      (cell b r col 0 = false ∧ cell b r col 1 = false) := by
  simp [Bool.and_eq_true, Bool.not_eq_true']

theorem empty_pred_false (b : Board) (col r : Int) :
    ((!cell b r col 0 && !cell b r col 1) = false) ↔
      ¬(cell b r col 0 = false ∧ cell b r col 1 = false) := by
  rw [← empty_pred_true]
  simp

theorem get_next_row_some_iff (b : Board) (col : Int) (r : Int) :
    get_next_row b col = some r ↔
      0 ≤ r ∧ r ≤ 5 ∧ (cell b r col 0 = false ∧ cell b r col 1 = false) ∧
        ∀ s : Int, r < s → s ≤ 5 →
          ¬(cell b s col 0 = false ∧ cell b s col 1 = false) := by
  unfold get_next_row
  rw [rows_bottom_up_eq, find?_desc_rows_some]
  constructor
  · rintro ⟨h0, h1, hpr, hmax⟩
    refine ⟨h0, by omega, (empty_pred_true b col r).1 hpr, ?_⟩
    intro s hs1 hs2
    exact (empty_pred_false b col s).1 (hmax s hs1 (by omega))
  · rintro ⟨h0, h1, hpr, hmax⟩
    refine ⟨h0, by omega, (empty_pred_true b col r).2 hpr, ?_⟩
    intro s hs1 hs2
    exact (empty_pred_false b col s).2 (hmax s hs1 (by omega))

theorem get_next_row_none_iff (b : Board) (col : Int) :
    get_next_row b col = none ↔
      ∀ r : Int, 0 ≤ r → r ≤ 5 →
        ¬(cell b r col 0 = false ∧ cell b r col 1 = false) := by
  unfold get_next_row
  rw [rows_bottom_up_eq, find?_desc_rows_none]
  constructor
  · intro h r h0 h1
    exact (empty_pred_false b col r).1 (h r h0 (by omega))
  · intro h r h0 h1
    exact (empty_pred_false b col r).2 (h r h0 (by omega))

/-- C3: for every board and every column in [0,6], `_get_next_row`
returns the largest row index `r` in [0,5] whose two occupancy layers are
both empty (the lowest empty row under gravity), and returns `None`
(column full) exactly when the column has no empty cell. -/
theorem get_next_row_lowest_empty (b : Board) (col : Int)
    (hc0 : 0 ≤ col) (hc6 : col ≤ 6) :
    (∀ r : Int, get_next_row b col = some r ↔
      0 ≤ r ∧ r ≤ 5 ∧ (cell b r col 0 = false ∧ cell b r col 1 = false) ∧
        ∀ s : Int, r < s → s ≤ 5 →
          ¬(cell b s col 0 = false ∧ cell b s col 1 = false)) ∧
    (get_next_row b col = none ↔
      ∀ r : Int, 0 ≤ r → r ≤ 5 →
        ¬(cell b r col 0 = false ∧ cell b r col 1 = false)) :=
  ⟨fun r => get_next_row_some_iff b col r, get_next_row_none_iff b col⟩

/-- C3 witness: on the empty board, column 0 lands at row 5. -/
theorem get_next_row_lowest_empty_witness :
    get_next_row empty_board 0 = some 5 := by
  rw [(get_next_row_lowest_empty empty_board 0 (by decide) (by decide)).1 5]
  decide

/-! ### Alignment-detector characterization (C4) -/

theorem cell_true_bounds {b : Board} {r c : Int} {ch : Fin 2}
    (h : cell b r c ch = true) : 0 ≤ r ∧ r < 6 ∧ 0 ≤ c ∧ c < 7 := by
  unfold cell at h
  split at h
  · assumption
  · cases h

theorem count_dir_aux_le_fuel (b : Board) (ch : Fin 2) (dr dc : Int) :
    ∀ (fuel : Nat) (r c : Int), count_dir_aux b ch dr dc fuel r c ≤ fuel := by
  intro fuel
  induction fuel with
  | zero => intro r c; simp [count_dir_aux]
  | succ fuel ih =>
    intro r c
    rw [count_dir_aux]
    by_cases hcell : cell b r c ch = true
    · rw [if_pos hcell]
      have := ih (r + dr) (c + dc)
      omega
    · rw [if_neg hcell]
      omega

theorem count_dir_aux_good (b : Board) (ch : Fin 2) (dr dc : Int) :
    ∀ (fuel : Nat) (r c : Int) (k : Nat), k < count_dir_aux b ch dr dc fuel r c →
      cell b (r + (k : Int) * dr) (c + (k : Int) * dc) ch = true := by
  intro fuel
  induction fuel with
  | zero => intro r c k hk; simp [count_dir_aux] at hk
  | succ fuel ih =>
    intro r c k hk
    rw [count_dir_aux] at hk
    by_cases hcell : cell b r c ch = true
    · rw [if_pos hcell] at hk
      cases k with
      | zero => simpa using hcell
      | succ j =>
        have hj : j < count_dir_aux b ch dr dc fuel (r + dr) (c + dc) := by omega
        have hgood := ih (r + dr) (c + dc) j hj
        have her : r + dr + (j : Int) * dr = r + ((j + 1 : Nat) : Int) * dr := by
          push_cast; ring
        have hec : c + dc + (j : Int) * dc = c + ((j + 1 : Nat) : Int) * dc := by
          push_cast; ring
        rw [her, hec] at hgood
        exact hgood
    · rw [if_neg hcell] at hk
      omega

theorem count_dir_aux_stop (b : Board) (ch : Fin 2) (dr dc : Int) :
    ∀ (fuel : Nat) (r c : Int), count_dir_aux b ch dr dc fuel r c < fuel →
      cell b (r + (count_dir_aux b ch dr dc fuel r c : Int) * dr)
        (c + (count_dir_aux b ch dr dc fuel r c : Int) * dc) ch = false := by
  intro fuel
  induction fuel with
  | zero => intro r c h; omega
  | succ fuel ih =>
    intro r c h
    rw [count_dir_aux] at h ⊢
    by_cases hcell : cell b r c ch = true
    · rw [if_pos hcell] at h ⊢
      have hlt : count_dir_aux b ch dr dc fuel (r + dr) (c + dc) < fuel := by omega
      have hstop := ih (r + dr) (c + dc) hlt
      have her : r + dr + (count_dir_aux b ch dr dc fuel (r + dr) (c + dc) : Int) * dr =
          r + ((count_dir_aux b ch dr dc fuel (r + dr) (c + dc) + 1 : Nat) : Int) * dr := by
        push_cast; ring
      have hec : c + dc + (count_dir_aux b ch dr dc fuel (r + dr) (c + dc) : Int) * dc =
          c + ((count_dir_aux b ch dr dc fuel (r + dr) (c + dc) + 1 : Nat) : Int) * dc := by
        push_cast; ring
      rw [her, hec] at hstop
      exact hstop
    · rw [if_neg hcell] at h ⊢
      simpa using hcell

/-- The shapes the four direction vectors (and their negations) take:
either the column step is ±1, or the row step is ±1 with no column
step.  Any such ray leaves the 6×7 grid within at most 7 cells. -/
def dir_ok (dr dc : Int) : Prop :=
  dc = 1 ∨ dc = -1 ∨ (dc = 0 ∧ (dr = 1 ∨ dr = -1))

instance (dr dc : Int) : Decidable (dir_ok dr dc) := by
  unfold dir_ok
  infer_instance

theorem directions_dir_ok :
    ∀ d ∈ directions, dir_ok d.1 d.2 ∧ dir_ok (-d.1) (-d.2) := by
  decide

theorem count_dir_le_seven {b : Board} {row col dr dc : Int} {ch : Fin 2}
    (hd : dir_ok dr dc) : count_dir b row col dr dc ch ≤ 7 := by
  by_contra hcon
  have hle : count_dir b row col dr dc ch ≤ 8 := count_dir_aux_le_fuel b ch dr dc 8 _ _
  have hm : count_dir b row col dr dc ch = 8 := by omega
  have h0 := count_dir_aux_good b ch dr dc 8 (row + dr) (col + dc) 0 (by rw [← count_dir, hm]; omega)
  have h7 := count_dir_aux_good b ch dr dc 8 (row + dr) (col + dc) 7 (by rw [← count_dir, hm]; omega)
  have hb0 := cell_true_bounds h0
  have hb7 := cell_true_bounds h7
  push_cast at hb0 hb7
  rcases hd with h | h | ⟨h1, h2 | h2⟩ <;> omega

/-- The cell `i` steps away from `(row, col)` along `(dr, dc)`. -/
def good_step (b : Board) (row col dr dc : Int) (ch : Fin 2) (i : Nat) : Bool :=
  cell b (row + (i : Int) * dr) (col + (i : Int) * dc) ch

/-- Specification-side run length: the greatest `n ≤ 7` such that the
`n` cells extending from `(row, col)` along `(dr, dc)` all carry `ch`
(each run stops at the grid boundary and at the first cell not set for
the channel, because out-of-range reads are empty). -/
def runLen (b : Board) (row col dr dc : Int) (ch : Fin 2) : Nat :=
  Nat.findGreatest (fun n => ∀ i ≤ n, 1 ≤ i → good_step b row col dr dc ch i = true) 7

theorem count_dir_eq_runLen {b : Board} {row col dr dc : Int} {ch : Fin 2}
    (hd : dir_ok dr dc) : count_dir b row col dr dc ch = runLen b row col dr dc ch := by
  have hgood : ∀ i : Nat, 1 ≤ i → i ≤ count_dir b row col dr dc ch →
      good_step b row col dr dc ch i = true := by
    intro i h1 h2
    have hk := count_dir_aux_good b ch dr dc 8 (row + dr) (col + dc) (i - 1)
      (by rw [← count_dir]; omega)
    unfold good_step
    have her : row + dr + ((i - 1 : Nat) : Int) * dr = row + (i : Int) * dr := by
      push_cast [h1]; ring
    have hec : col + dc + ((i - 1 : Nat) : Int) * dc = col + (i : Int) * dc := by
      push_cast [h1]; ring
    rw [her, hec] at hk
    exact hk
  have h7 : count_dir b row col dr dc ch ≤ 7 := count_dir_le_seven hd
  have hstop : good_step b row col dr dc ch (count_dir b row col dr dc ch + 1) = false := by
    have := count_dir_aux_stop b ch dr dc 8 (row + dr) (col + dc) (by
      have hx := h7
      rw [← count_dir]; omega)
    rw [← count_dir] at this
    unfold good_step
    have her : row + dr + (count_dir b row col dr dc ch : Int) * dr =
        row + ((count_dir b row col dr dc ch + 1 : Nat) : Int) * dr := by
      push_cast; ring
    have hec : col + dc + (count_dir b row col dr dc ch : Int) * dc =
        col + ((count_dir b row col dr dc ch + 1 : Nat) : Int) * dc := by
      push_cast; ring
    rw [her, hec] at this
    exact this
  symm
  rw [runLen, Nat.findGreatest_eq_iff]
  refine ⟨h7, fun _ => fun i hi h1 => hgood i h1 hi, ?_⟩
  intro n hn hn7 hP
  have := hP (count_dir b row col dr dc ch + 1) (by omega) (by omega)
  rw [hstop] at this
  cases this

/-- The alignment test, characterized by declarative run lengths. -/
theorem check_win_iff_aux (b : Board) (row col : Int) (ch : Fin 2) :
    check_win_from_position b row col ch = true ↔
      ∃ d ∈ directions,
        4 ≤ 1 + runLen b row col d.1 d.2 ch + runLen b row col (-d.1) (-d.2) ch := by
  unfold check_win_from_position
  rw [List.any_eq_true]
  constructor
  · rintro ⟨d, hd, h4⟩
    obtain ⟨ho, hno⟩ := directions_dir_ok d hd
    rw [decide_eq_true_eq, count_dir_eq_runLen ho, count_dir_eq_runLen hno] at h4
    exact ⟨d, hd, h4⟩
  · rintro ⟨d, hd, h4⟩
    obtain ⟨ho, hno⟩ := directions_dir_ok d hd
    refine ⟨d, hd, ?_⟩
    rw [decide_eq_true_eq, count_dir_eq_runLen ho, count_dir_eq_runLen hno]
    exact h4

/-- C4: `_check_win_from_position` returns true iff, for at least one of
the four axes, 1 (for the placed piece) plus the number of consecutive
`channel`-occupied cells extending in the positive direction plus the
number extending in the negative direction is at least 4, where each run
stops at a grid boundary and at the first cell not set for the channel. -/
theorem check_win_iff_axis_total (b : Board) (row col : Int) (ch : Fin 2) :
    check_win_from_position b row col ch = true ↔
      ∃ d ∈ directions,
        4 ≤ 1 + runLen b row col d.1 d.2 ch + runLen b row col (-d.1) (-d.2) ch :=
  check_win_iff_aux b row col ch

/-! ### The detector never reads the queried cell (C10) -/

/-- Two boards agree on every cell other than `(row, col)` (both
channels of that one cell may differ). -/
def agree_off (b b2 : Board) (row col : Int) : Prop :=
  ∀ (r : Fin 6) (c : Fin 7) (k : Fin 2),
    ¬(((r : ℕ) : ℤ) = row ∧ ((c : ℕ) : ℤ) = col) → b r c k = b2 r c k

instance (b b2 : Board) (row col : Int) : Decidable (agree_off b b2 row col) := by
  unfold agree_off
  infer_instance

theorem cell_congr {b b2 : Board} {row col : Int} (h : agree_off b b2 row col)
    {r c : Int} (hne : ¬(r = row ∧ c = col)) (ch : Fin 2) :
    cell b r c ch = cell b2 r c ch := by
  unfold cell
  by_cases hb : 0 ≤ r ∧ r < 6 ∧ 0 ≤ c ∧ c < 7
  · rw [dif_pos hb, dif_pos hb]
    apply h
    intro hco
    apply hne
    obtain ⟨h1, h2⟩ := hco
    constructor
    · rw [← h1]; simp [Int.toNat_of_nonneg hb.1]
    · rw [← h2]; simp [Int.toNat_of_nonneg hb.2.2.1]
  · rw [dif_neg hb, dif_neg hb]

theorem count_dir_aux_congr {b b2 : Board} {row col : Int}
    (h : agree_off b b2 row col) {dr dc : Int} (hdz : ¬(dr = 0 ∧ dc = 0)) (ch : Fin 2) :
    ∀ (fuel : Nat) (i : Nat), 1 ≤ i →
      count_dir_aux b ch dr dc fuel (row + (i : Int) * dr) (col + (i : Int) * dc) =
        count_dir_aux b2 ch dr dc fuel (row + (i : Int) * dr) (col + (i : Int) * dc) := by
  intro fuel
  induction fuel with
  | zero => intro i h1; rfl
  | succ fuel ih =>
    intro i h1
    rw [count_dir_aux, count_dir_aux]
    have hne : ¬(row + (i : Int) * dr = row ∧ col + (i : Int) * dc = col) := by
      rintro ⟨e1, e2⟩
      have hdr : (i : Int) * dr = 0 := by omega
      have hdc : (i : Int) * dc = 0 := by omega
      have hiz : (i : Int) ≠ 0 := by positivity
      exact hdz ⟨by
        rcases mul_eq_zero.1 hdr with hz | hz
        · exact absurd hz hiz
        · exact hz, by
        rcases mul_eq_zero.1 hdc with hz | hz
        · exact absurd hz hiz
        · exact hz⟩
    rw [cell_congr h hne ch]
    by_cases hc : cell b2 (row + (i : Int) * dr) (col + (i : Int) * dc) ch = true
    · rw [if_pos hc, if_pos hc]
      have hstep := ih (i + 1) (by omega)
      have her : row + ((i + 1 : Nat) : Int) * dr = row + (i : Int) * dr + dr := by
        push_cast; ring
      have hec : col + ((i + 1 : Nat) : Int) * dc = col + (i : Int) * dc + dc := by
        push_cast; ring
      rw [her, hec] at hstep
      rw [hstep]
    · rw [if_neg hc, if_neg hc]

theorem count_dir_congr {b b2 : Board} {row col : Int}
    (h : agree_off b b2 row col) {dr dc : Int} (hdz : ¬(dr = 0 ∧ dc = 0)) (ch : Fin 2) :
    count_dir b row col dr dc ch = count_dir b2 row col dr dc ch := by
  unfold count_dir
  have hone := count_dir_aux_congr h hdz ch 8 1 le_rfl
  simpa using hone

theorem dir_ok_ne_zero {dr dc : Int} (hd : dir_ok dr dc) : ¬(dr = 0 ∧ dc = 0) := by
  rcases hd with h1 | h1 | ⟨h1, h2 | h2⟩ <;> omega

theorem runLen_congr {b b2 : Board} {row col : Int}
    (h : agree_off b b2 row col) (dr dc : Int) (hd : dir_ok dr dc) (ch : Fin 2) :
    runLen b row col dr dc ch = runLen b2 row col dr dc ch := by
  rw [← count_dir_eq_runLen hd, ← count_dir_eq_runLen hd]
  exact count_dir_congr h (dir_ok_ne_zero hd) ch

theorem check_win_congr {b b2 : Board} {row col : Int}
    (h : agree_off b b2 row col) (ch : Fin 2) :
    check_win_from_position b row col ch = check_win_from_position b2 row col ch := by
  have hiff : check_win_from_position b row col ch = true ↔
      check_win_from_position b2 row col ch = true := by
    rw [check_win_iff_aux, check_win_iff_aux]
    constructor <;> rintro ⟨d, hd, h4⟩ <;> refine ⟨d, hd, ?_⟩
    · rw [← runLen_congr h d.1 d.2 (directions_dir_ok d hd).1 ch,
        ← runLen_congr h (-d.1) (-d.2) (directions_dir_ok d hd).2 ch]
      exact h4
    · rw [runLen_congr h d.1 d.2 (directions_dir_ok d hd).1 ch,
        runLen_congr h (-d.1) (-d.2) (directions_dir_ok d hd).2 ch]
      exact h4
  cases hb : check_win_from_position b row col ch with
  | true => exact (hiff.1 hb).symm
  | false =>
    cases hb2 : check_win_from_position b2 row col ch with
    | true =>
      rw [hiff.2 hb2] at hb
      cases hb
    | false => rfl

/-- C10: the alignment detector's verdict is independent of the content
of the queried cell itself — two boards differing only at `(row, col)`
(either channel) yield the same result, since the count starts at 1 for
the placed piece and the scans begin at the neighbouring cells. -/
theorem check_win_center_independent (b b2 : Board) (row col : Int) (ch : Fin 2)
    (h : agree_off b b2 row col) :
    check_win_from_position b row col ch = check_win_from_position b2 row col ch :=
  check_win_congr h ch

/-- C10 witness: writing the hypothetical piece (or not) into cell
(5, 3) does not change the verdict at (5, 3). -/
theorem check_win_center_independent_witness :
    check_win_from_position (set_cell empty_board 5 3 0) 5 3 0 =
      check_win_from_position empty_board 5 3 0 :=
  check_win_center_independent (set_cell empty_board 5 3 0) empty_board 5 3 0
    (by decide)

/-! ### Piece counting (C6) -/

/-- The (row, column) index set of the 6×7 grid. -/
def grid_cells : Finset (Int × Int) := Finset.Icc 0 5 ×ˢ Finset.Icc 0 6

/-- How many pieces of channel `ch` sit on the board. -/
def piece_count (b : Board) (ch : Fin 2) : Nat :=
  (grid_cells.filter fun q => cell b q.1 q.2 ch = true).card

theorem cell_set_cell_elim {b : Board} {row col r c : Int} {ch0 ch : Fin 2}
    (h : cell (set_cell b row col ch0) r c ch = true) :
    (r = row ∧ c = col ∧ ch = ch0) ∨ cell b r c ch = true := by
  have hb := cell_true_bounds h
  unfold cell set_cell at h
  rw [dif_pos hb] at h
  unfold cell
  rw [dif_pos hb]
  by_cases hc : ((r.toNat : ℕ) : ℤ) = row ∧ ((c.toNat : ℕ) : ℤ) = col ∧ ch = ch0
  · left
    obtain ⟨h1, h2, h3⟩ := hc
    refine ⟨?_, ?_, h3⟩
    · rw [← h1]; simp [Int.toNat_of_nonneg hb.1]
    · rw [← h2]; simp [Int.toNat_of_nonneg hb.2.2.1]
  · right
    rw [if_neg hc] at h
    exact h

theorem cell_set_cell_mono {b : Board} {row col r c : Int} {ch0 ch : Fin 2}
    (h : cell b r c ch = true) :
    cell (set_cell b row col ch0) r c ch = true := by
  have hb := cell_true_bounds h
  unfold cell at h ⊢
  rw [dif_pos hb] at h ⊢
  unfold set_cell
  by_cases hc : ((r.toNat : ℕ) : ℤ) = row ∧ ((c.toNat : ℕ) : ℤ) = col ∧ ch = ch0
  · rw [if_pos hc]
  · rw [if_neg hc]
    exact h

theorem piece_count_set_cell_le (b : Board) (row col : Int) (ch0 ch : Fin 2) :
    piece_count (set_cell b row col ch0) ch ≤ piece_count b ch + 1 := by
  unfold piece_count
  have hsub : (grid_cells.filter fun q => cell (set_cell b row col ch0) q.1 q.2 ch = true) ⊆
      insert (row, col) (grid_cells.filter fun q => cell b q.1 q.2 ch = true) := by
    intro q hq
    rw [Finset.mem_filter] at hq
    rcases cell_set_cell_elim hq.2 with ⟨h1, h2, -⟩ | hold
    · rw [Finset.mem_insert]
      left
      rw [Prod.ext_iff]
      exact ⟨h1, h2⟩
    · rw [Finset.mem_insert]
      right
      rw [Finset.mem_filter]
      exact ⟨hq.1, hold⟩
  calc (grid_cells.filter fun q => cell (set_cell b row col ch0) q.1 q.2 ch = true).card
      ≤ (insert (row, col) (grid_cells.filter fun q => cell b q.1 q.2 ch = true)).card :=
        Finset.card_le_card hsub
    _ ≤ (grid_cells.filter fun q => cell b q.1 q.2 ch = true).card + 1 :=
        Finset.card_insert_le _ _

theorem ray_inj {dr dc : Int} (hdz : ¬(dr = 0 ∧ dc = 0)) {x y : Int}
    (h1 : x * dr = y * dr) (h2 : x * dc = y * dc) : x = y := by
  rcases not_and_or.1 hdz with h | h
  · exact mul_right_cancel₀ h h1
  · exact mul_right_cancel₀ h h2

theorem runLen_good {b : Board} {row col dr dc : Int} {ch : Fin 2} :
    ∀ i : Nat, 1 ≤ i → i ≤ runLen b row col dr dc ch →
      good_step b row col dr dc ch i = true := by
  intro i h1 h2
  by_cases h0 : runLen b row col dr dc ch = 0
  · exact absurd h1 (by omega)
  · have hch := (Nat.findGreatest_eq_iff
      (P := fun n => ∀ j ≤ n, 1 ≤ j → good_step b row col dr dc ch j = true) (k := 7)).1 rfl
    have hP := hch.2.1 h0
    exact hP i h2 h1

theorem check_win_three_pieces {b : Board} {row col : Int} {ch : Fin 2}
    (h : check_win_from_position b row col ch = true) :
    3 ≤ (grid_cells.filter fun a => cell b a.1 a.2 ch = true ∧ a ≠ (row, col)).card := by
  obtain ⟨d, hd, h4⟩ := (check_win_iff_aux b row col ch).1 h
  obtain ⟨ho, hno⟩ := directions_dir_ok d hd
  have hdz : ¬(d.1 = 0 ∧ d.2 = 0) := dir_ok_ne_zero ho
  have hposgood : ∀ i ∈ Finset.Icc 1 (runLen b row col d.1 d.2 ch),
      cell b (row + (i : Int) * d.1) (col + (i : Int) * d.2) ch = true := by
    intro i hi
    rw [Finset.mem_Icc] at hi
    exact runLen_good i hi.1 hi.2
  have hneggood : ∀ j ∈ Finset.Icc 1 (runLen b row col (-d.1) (-d.2) ch),
      cell b (row - (j : Int) * d.1) (col - (j : Int) * d.2) ch = true := by
    intro j hj
    rw [Finset.mem_Icc] at hj
    have hg := runLen_good j hj.1 hj.2
    unfold good_step at hg
    rw [show row + (j : Int) * -d.1 = row - (j : Int) * d.1 by ring,
      show col + (j : Int) * -d.2 = col - (j : Int) * d.2 by ring] at hg
    exact hg
  have hinjpos : Set.InjOn (fun i : Nat => ((row + (i : Int) * d.1, col + (i : Int) * d.2) : Int × Int))
      (Finset.Icc 1 (runLen b row col d.1 d.2 ch)) := by
    intro i hi i2 hi2 he
    rw [Prod.mk.injEq] at he
    have h1 : (i : Int) * d.1 = (i2 : Int) * d.1 := by
      have := he.1; linarith
    have h2 : (i : Int) * d.2 = (i2 : Int) * d.2 := by
      have := he.2; linarith
    exact_mod_cast ray_inj hdz h1 h2
  have hinjneg : Set.InjOn (fun j : Nat => ((row - (j : Int) * d.1, col - (j : Int) * d.2) : Int × Int))
      (Finset.Icc 1 (runLen b row col (-d.1) (-d.2) ch)) := by
    intro j hj j2 hj2 he
    rw [Prod.mk.injEq] at he
    have h1 : (j : Int) * d.1 = (j2 : Int) * d.1 := by
      have := he.1; linarith
    have h2 : (j : Int) * d.2 = (j2 : Int) * d.2 := by
      have := he.2; linarith
    exact_mod_cast ray_inj hdz h1 h2
  have hdisj : Disjoint
      ((Finset.Icc 1 (runLen b row col d.1 d.2 ch)).image
        (fun i : Nat => ((row + (i : Int) * d.1, col + (i : Int) * d.2) : Int × Int)))
      ((Finset.Icc 1 (runLen b row col (-d.1) (-d.2) ch)).image
        (fun j : Nat => ((row - (j : Int) * d.1, col - (j : Int) * d.2) : Int × Int))) := by
    rw [Finset.disjoint_left]
    intro a hapos haneg
    rw [Finset.mem_image] at hapos haneg
    obtain ⟨i, hi, hie⟩ := hapos
    obtain ⟨j, hj, hje⟩ := haneg
    rw [Finset.mem_Icc] at hi hj
    rw [← hje, Prod.mk.injEq] at hie
    have e1 : ((i : Int) + (j : Int)) * d.1 = 0 := by
      have := hie.1; ring_nf; ring_nf at this; linarith
    have e2 : ((i : Int) + (j : Int)) * d.2 = 0 := by
      have := hie.2; ring_nf; ring_nf at this; linarith
    have hsumne : ((i : Int) + (j : Int)) ≠ 0 := by
      have hi1 := hi.1
      have hj1 := hj.1
      omega
    rcases mul_eq_zero.1 e1 with hz | hz1
    · exact hsumne hz
    · rcases mul_eq_zero.1 e2 with hz | hz2
      · exact hsumne hz
      · exact hdz ⟨hz1, hz2⟩
  have hcard : (((Finset.Icc 1 (runLen b row col d.1 d.2 ch)).image
      (fun i : Nat => ((row + (i : Int) * d.1, col + (i : Int) * d.2) : Int × Int))) ∪
      ((Finset.Icc 1 (runLen b row col (-d.1) (-d.2) ch)).image
        (fun j : Nat => ((row - (j : Int) * d.1, col - (j : Int) * d.2) : Int × Int)))).card =
      runLen b row col d.1 d.2 ch + runLen b row col (-d.1) (-d.2) ch := by
    rw [Finset.card_union_of_disjoint hdisj, Finset.card_image_of_injOn hinjpos,
      Finset.card_image_of_injOn hinjneg, Nat.card_Icc, Nat.card_Icc]
    omega
  have hsub : (((Finset.Icc 1 (runLen b row col d.1 d.2 ch)).image
      (fun i : Nat => ((row + (i : Int) * d.1, col + (i : Int) * d.2) : Int × Int))) ∪
      ((Finset.Icc 1 (runLen b row col (-d.1) (-d.2) ch)).image
        (fun j : Nat => ((row - (j : Int) * d.1, col - (j : Int) * d.2) : Int × Int)))) ⊆
      grid_cells.filter fun a => cell b a.1 a.2 ch = true ∧ a ≠ (row, col) := by
    intro a ha
    rw [Finset.mem_union] at ha
    rcases ha with ha | ha <;> rw [Finset.mem_image] at ha
    · obtain ⟨i, hi, rfl⟩ := ha
      have hcell := hposgood i hi
      have hb := cell_true_bounds hcell
      rw [Finset.mem_Icc] at hi
      rw [Finset.mem_filter]
      refine ⟨?_, hcell, ?_⟩
      · unfold grid_cells
        rw [Finset.mem_product, Finset.mem_Icc, Finset.mem_Icc]
        refine ⟨⟨hb.1, ?_⟩, hb.2.2.1, ?_⟩
        · show row + (i : Int) * d.1 ≤ 5
          have := hb.2.1; linarith
        · show col + (i : Int) * d.2 ≤ 6
          have := hb.2.2.2; linarith
      · intro he
        rw [Prod.mk.injEq] at he
        have h1 : (i : Int) * d.1 = 0 := by have := he.1; linarith
        have h2 : (i : Int) * d.2 = 0 := by have := he.2; linarith
        have hiz : (i : Int) ≠ 0 := by
          have := hi.1; omega
        rcases mul_eq_zero.1 h1 with hz | hz1
        · exact hiz hz
        · rcases mul_eq_zero.1 h2 with hz | hz2
          · exact hiz hz
          · exact hdz ⟨hz1, hz2⟩
    · obtain ⟨j, hj, rfl⟩ := ha
      have hcell := hneggood j hj
      have hb := cell_true_bounds hcell
      rw [Finset.mem_Icc] at hj
      rw [Finset.mem_filter]
      refine ⟨?_, hcell, ?_⟩
      · unfold grid_cells
        rw [Finset.mem_product, Finset.mem_Icc, Finset.mem_Icc]
        refine ⟨⟨hb.1, ?_⟩, hb.2.2.1, ?_⟩
        · show row - (j : Int) * d.1 ≤ 5
          have := hb.2.1; linarith
        · show col - (j : Int) * d.2 ≤ 6
          have := hb.2.2.2; linarith
      · intro he
        rw [Prod.mk.injEq] at he
        have h1 : (j : Int) * d.1 = 0 := by have := he.1; linarith
        have h2 : (j : Int) * d.2 = 0 := by have := he.2; linarith
        have hjz : (j : Int) ≠ 0 := by
          have := hj.1; omega
        rcases mul_eq_zero.1 h1 with hz | hz1
        · exact hjz hz
        · rcases mul_eq_zero.1 h2 with hz | hz2
          · exact hjz hz
          · exact hdz ⟨hz1, hz2⟩
  have hle := Finset.card_le_card hsub
  rw [hcard] at hle
  omega

theorem two_le_countP_iff {p : Nat → Bool} {l : List Nat} (hnd : l.Nodup) :
    2 ≤ l.countP p ↔ ∃ x ∈ l, ∃ y ∈ l, x ≠ y ∧ p x = true ∧ p y = true := by
  rw [List.countP_eq_length_filter]
  constructor
  · intro h2
    rcases hf : l.filter p with - | ⟨a, - | ⟨c, t⟩⟩
    · rw [hf] at h2; simp at h2
    · rw [hf] at h2; simp at h2
    · have ha : a ∈ l.filter p := by rw [hf]; exact List.mem_cons_self _ _
      have hc : c ∈ l.filter p := by
        rw [hf]; exact List.mem_cons_of_mem _ (List.mem_cons_self _ _)
      have hnd2 := hnd.filter p
      rw [hf, List.nodup_cons] at hnd2
      have hne : a ≠ c := fun he => hnd2.1 (he ▸ List.mem_cons_self _ _)
      rw [List.mem_filter] at ha hc
      exact ⟨a, ha.1, c, hc.1, hne, ha.2, hc.2⟩
  · rintro ⟨x, hx, y, hy, hxy, hpx, hpy⟩
    have hxf : x ∈ l.filter p := List.mem_filter.2 ⟨hx, hpx⟩
    have hyf : y ∈ l.filter p := List.mem_filter.2 ⟨hy, hpy⟩
    rcases hf : l.filter p with - | ⟨a, - | ⟨c, t⟩⟩
    · rw [hf] at hxf; simp at hxf
    · rw [hf] at hxf hyf
      rw [List.mem_singleton] at hxf hyf
      exact absurd (hxf.trans hyf.symm) hxy
    · simp only [List.length_cons]
      omega

theorem dt_pred_iff (bc : Board) (ch : Fin 2) (nc : Nat) :
    second_win_pred bc ch nc = true ↔
      ∃ nr, get_next_row bc (nc : Int) = some nr ∧
        check_win_from_position (set_cell bc nr nc ch) nr nc ch = true := by
  unfold second_win_pred
  cases hr : get_next_row bc (nc : Int) <;> simp [hr, board_copy]

theorem creates_double_threat_eq_of_some {b : Board} {col : Nat} {ch : Fin 2} {row : Int}
    (hrow : get_next_row b (col : Int) = some row) :
    creates_double_threat b col ch =
      decide (2 ≤ (List.range 7).countP
        (second_win_pred (set_cell (board_copy b) row (col : Int) ch) ch)) := by
  unfold creates_double_threat
  rw [hrow]

/-- C6: `_creates_double_threat` returns false on a full column;
otherwise (landing row `row`) it returns true iff at least 2 of the
columns 0..6, evaluated on the board holding the hypothetical first
piece, have a landing row where a second `ch` piece would complete
four; and it is always false when the board holds fewer than 2 pieces
of that channel. -/
theorem creates_double_threat_correct (b : Board) (col : Nat) (ch : Fin 2)
    (hc : col ≤ 6) :
    ((∀ r : Int, 0 ≤ r → r ≤ 5 →
        ¬(cell b r col 0 = false ∧ cell b r col 1 = false)) →
      creates_double_threat b col ch = false) ∧
    (∀ row : Int, get_next_row b (col : Int) = some row →
      (creates_double_threat b col ch = true ↔
        ∃ c1 ∈ List.range 7, ∃ c2 ∈ List.range 7, c1 ≠ c2 ∧
          (∃ r1, get_next_row (set_cell b row col ch) (c1 : Int) = some r1 ∧
            check_win_from_position (set_cell (set_cell b row col ch) r1 c1 ch)
              r1 c1 ch = true) ∧
          (∃ r2, get_next_row (set_cell b row col ch) (c2 : Int) = some r2 ∧
            check_win_from_position (set_cell (set_cell b row col ch) r2 c2 ch)
              r2 c2 ch = true))) ∧
    (piece_count b ch < 2 → creates_double_threat b col ch = false) := by
  refine ⟨?_, ?_, ?_⟩
  · intro hfull
    have hnone : get_next_row b (col : Int) = none := (get_next_row_none_iff b col).2 hfull
    unfold creates_double_threat
    rw [hnone]
  · intro row hrow
    constructor
    · intro hdt
      rw [creates_double_threat_eq_of_some hrow, decide_eq_true_eq,
        two_le_countP_iff (List.nodup_range 7)] at hdt
      obtain ⟨x, hx, y, hy, hxy, hpx, hpy⟩ := hdt
      rw [dt_pred_iff] at hpx hpy
      simp only [board_copy] at hpx hpy
      exact ⟨x, hx, y, hy, hxy, hpx, hpy⟩
    · rintro ⟨x, hx, y, hy, hxy, hpx, hpy⟩
      rw [creates_double_threat_eq_of_some hrow, decide_eq_true_eq,
        two_le_countP_iff (List.nodup_range 7)]
      refine ⟨x, hx, y, hy, hxy, ?_, ?_⟩
      · rw [dt_pred_iff]
        simpa [board_copy] using hpx
      · rw [dt_pred_iff]
        simpa [board_copy] using hpy
  · intro hpc
    cases hdt : creates_double_threat b col ch with
    | false => rfl
    | true =>
      exfalso
      cases hrow : get_next_row b (col : Int) with
      | none =>
        have hnone : creates_double_threat b col ch = false := by
          unfold creates_double_threat
          rw [hrow]
        rw [hnone] at hdt
        cases hdt
      | some row =>
        rw [creates_double_threat_eq_of_some hrow, decide_eq_true_eq,
          two_le_countP_iff (List.nodup_range 7)] at hdt
        obtain ⟨x, hx, -, -, -, hpx, -⟩ := hdt
        rw [dt_pred_iff] at hpx
        simp only [board_copy] at hpx
        obtain ⟨nr, hnr, hwin⟩ := hpx
        have h3 := check_win_three_pieces hwin
        have hsub : (grid_cells.filter fun a =>
            cell (set_cell (set_cell b row col ch) nr x ch) a.1 a.2 ch = true ∧
              a ≠ (nr, (x : Int))) ⊆
            grid_cells.filter fun a => cell (set_cell b row col ch) a.1 a.2 ch = true := by
          intro a ha
          rw [Finset.mem_filter] at ha ⊢
          refine ⟨ha.1, ?_⟩
          rcases cell_set_cell_elim ha.2.1 with ⟨h1, h2, -⟩ | hold
          · exact absurd (Prod.ext h1 h2) ha.2.2
          · exact hold
        have hle := Finset.card_le_card hsub
        have hle1 := piece_count_set_cell_le b row col ch ch
        unfold piece_count at hle1 hpc
        omega

/-- C6 witness: on the empty board (fewer than 2 mover pieces) no column
creates a double threat; shown here for the centre column. -/
theorem creates_double_threat_correct_witness :
    creates_double_threat empty_board 3 0 = false :=
  (creates_double_threat_correct empty_board 3 0 (by decide)).2.2 (by decide)

/-! ### Winning-move search (C5) -/

theorem is_winning_col_iff (b : Board) (ch : Fin 2) (c : Nat) :
    is_winning_col b ch c = true ↔
      ∃ row, get_next_row b (c : Int) = some row ∧
        check_win_from_position (set_cell b row c ch) row c ch = true := by
  unfold is_winning_col
  cases hr : get_next_row b (c : Int) <;> simp [hr, board_copy]

theorem find?_sorted_some {p : Nat → Bool} :
    ∀ {l : List Nat}, l.Sorted (· < ·) →
      ∀ c : Nat, (l.find? p = some c ↔
        c ∈ l ∧ p c = true ∧ ∀ x ∈ l, x < c → p x = false) := by
  intro l
  induction l with
  | nil =>
    intro hs c
    simp
  | cons a t ih =>
    intro hs c
    rw [List.sorted_cons] at hs
    cases hp : p a with
    | true =>
      rw [List.find?_cons_of_pos _ hp]
      constructor
      · intro he
        rw [Option.some_inj] at he
        subst he
        refine ⟨List.mem_cons_self _ _, hp, ?_⟩
        intro x hx hlt
        rcases List.mem_cons.1 hx with rfl | hxt
        · omega
        · exact absurd (hs.1 x hxt) (by omega)
      · rintro ⟨hc, hpc, hmin⟩
        rcases List.mem_cons.1 hc with rfl | hct
        · rfl
        · have hac : a < c := hs.1 c hct
          have := hmin a (List.mem_cons_self _ _) hac
          rw [this] at hp
          cases hp
    | false =>
      rw [List.find?_cons_of_neg _ (by simp [hp]), ih hs.2 c]
      constructor
      · rintro ⟨hc, hpc, hmin⟩
        refine ⟨List.mem_cons_of_mem _ hc, hpc, ?_⟩
        intro x hx hlt
        rcases List.mem_cons.1 hx with rfl | hxt
        · exact hp
        · exact hmin x hxt hlt
      · rintro ⟨hc, hpc, hmin⟩
        rcases List.mem_cons.1 hc with rfl | hct
        · rw [hpc] at hp; cases hp
        · exact ⟨hct, hpc, fun x hx hlt => hmin x (List.mem_cons_of_mem _ hx) hlt⟩

/-- Counterexample board: mover pieces at (4,1), (4,2), (4,3) resting on
opponent pieces at (5,1), (5,2), (5,3).  The extension cells (4,0) and
(4,4) are open, but a piece dropped in column 0 or 4 lands at row 5. -/
def floating_board : Board := fun r c ch =>
  (ch == 0 && r == 4 && (c == 1 || c == 2 || c == 3)) ||
    (ch == 1 && r == 5 && (c == 1 || c == 2 || c == 3))

/-- Counterexample board: mover pieces at (5,1), (5,2), (5,3), so both
column 0 and column 4 win; used to show the scan follows the list order
given, not ascending order. -/
def bottom_row_board : Board := fun r c ch =>
  ch == 0 && r == 5 && (c == 1 || c == 2 || c == 3)

/-- C5 counterexample.  First part: on `floating_board` the mover has
three aligned pieces with open extension cells at (4,0) and (4,4), yet
`_find_winning_move` over all legal columns returns `None`, because the
dropped piece would land at row 5, not at the extension cell.  Second
part: with the non-ascending legal list [4, 0] and two winning columns,
the function returns 4, the first in list order, not the first in
ascending order. -/
theorem find_winning_move_counterexample :
    (cell floating_board 4 1 0 = true ∧ cell floating_board 4 2 0 = true ∧
      cell floating_board 4 3 0 = true ∧
      cell floating_board 4 0 0 = false ∧ cell floating_board 4 0 1 = false ∧
      cell floating_board 4 4 0 = false ∧ cell floating_board 4 4 1 = false ∧
      find_winning_move floating_board [0, 1, 2, 3, 4, 5, 6] 0 = none) ∧
    (is_winning_col bottom_row_board 0 0 = true ∧
      is_winning_col bottom_row_board 0 4 = true ∧
      find_winning_move bottom_row_board [4, 0] 0 = some 4) := by
  decide

/-- C5 (amended): for every board, every ascending legal-column list and
every channel, `_find_winning_move` returns the first legal column whose
gravity placement of a `channel` piece completes four, and `None`
exactly when no legal column does; moreover, whenever the channel has
three aligned pieces whose open extension cell is the gravity landing
cell of a legal column, the search succeeds and returns a winning legal
column (that extension column itself whenever no smaller legal column
also wins, by the first part). -/
theorem find_winning_move_first_win (b : Board) (legal : List Nat) (ch : Fin 2)
    (hs : legal.Sorted (· < ·)) :
    (∀ c : Nat, find_winning_move b legal ch = some c ↔
      c ∈ legal ∧
        (∃ row, get_next_row b (c : Int) = some row ∧
          check_win_from_position (set_cell b row c ch) row c ch = true) ∧
        ∀ x ∈ legal, x < c →
          ¬∃ row, get_next_row b (x : Int) = some row ∧
            check_win_from_position (set_cell b row x ch) row x ch = true) ∧
    (find_winning_move b legal ch = none ↔
      ∀ x ∈ legal, ¬∃ row, get_next_row b (x : Int) = some row ∧
        check_win_from_position (set_cell b row x ch) row x ch = true) ∧
    (∀ (er dr dc : Int) (ec : Nat),
      ((dr, dc) ∈ directions ∨ (-dr, -dc) ∈ directions) →
      cell b (er + dr) ((ec : Int) + dc) ch = true →
      cell b (er + 2 * dr) ((ec : Int) + 2 * dc) ch = true →
      cell b (er + 3 * dr) ((ec : Int) + 3 * dc) ch = true →
      ec ∈ legal →
      get_next_row b (ec : Int) = some er →
      ∃ w, find_winning_move b legal ch = some w ∧ w ∈ legal ∧
        ∃ row, get_next_row b (w : Int) = some row ∧
          check_win_from_position (set_cell b row w ch) row w ch = true) := by
  have hfalse : ∀ x : Nat, (is_winning_col b ch x = false) ↔
      ¬∃ row, get_next_row b (x : Int) = some row ∧
        check_win_from_position (set_cell b row x ch) row x ch = true := by
    intro x
    rw [← is_winning_col_iff b ch x]
    simp
  refine ⟨?_, ?_, ?_⟩
  · intro c
    unfold find_winning_move
    rw [find?_sorted_some hs c]
    constructor
    · rintro ⟨h1, h2, h3⟩
      exact ⟨h1, (is_winning_col_iff b ch c).1 h2, fun x hx hlt => (hfalse x).1 (h3 x hx hlt)⟩
    · rintro ⟨h1, h2, h3⟩
      exact ⟨h1, (is_winning_col_iff b ch c).2 h2, fun x hx hlt => (hfalse x).2 (h3 x hx hlt)⟩
  · unfold find_winning_move
    rw [List.find?_eq_none]
    constructor
    · intro h x hx
      exact (hfalse x).1 (Bool.not_eq_true _ ▸ h x hx)
    · intro h x hx
      rw [Bool.not_eq_true]
      exact (hfalse x).2 (h x hx)
  · intro er dr dc ec hdmem h1 h2 h3 hecleg hland
    have hwin : is_winning_col b ch ec = true := by
      rw [is_winning_col_iff]
      refine ⟨er, hland, ?_⟩
      rw [check_win_iff_aux]
      have hmono1 : cell (set_cell b er ec ch) (er + dr) ((ec : Int) + dc) ch = true :=
        cell_set_cell_mono h1
      have hmono2 : cell (set_cell b er ec ch) (er + 2 * dr) ((ec : Int) + 2 * dc) ch = true :=
        cell_set_cell_mono h2
      have hmono3 : cell (set_cell b er ec ch) (er + 3 * dr) ((ec : Int) + 3 * dc) ch = true :=
        cell_set_cell_mono h3
      have hP3 : ∀ i ≤ 3, 1 ≤ i → good_step (set_cell b er ec ch) er ec dr dc ch i = true := by
        intro i hile h1i
        interval_cases i
        · unfold good_step
          push_cast
          simpa using hmono1
        · unfold good_step
          push_cast
          exact hmono2
        · unfold good_step
          push_cast
          exact hmono3
      have hge3 : 3 ≤ runLen (set_cell b er ec ch) er ec dr dc ch :=
        Nat.le_findGreatest (by omega) hP3
      rcases hdmem with hmem | hmem
      · refine ⟨(dr, dc), hmem, ?_⟩
        show 4 ≤ 1 + runLen (set_cell b er ec ch) er ec dr dc ch +
          runLen (set_cell b er ec ch) er ec (-dr) (-dc) ch
        omega
      · refine ⟨(-dr, -dc), hmem, ?_⟩
        show 4 ≤ 1 + runLen (set_cell b er ec ch) er ec (-dr) (-dc) ch +
          runLen (set_cell b er ec ch) er ec (- -dr) (- -dc) ch
        rw [neg_neg, neg_neg]
        omega
    unfold find_winning_move
    cases hf : legal.find? (is_winning_col b ch) with
    | none =>
      rw [List.find?_eq_none] at hf
      exact absurd hwin (by simpa using hf ec hecleg)
    | some w =>
      have hpw := List.find?_some hf
      have hmemw := List.mem_of_find?_eq_some hf
      rw [is_winning_col_iff] at hpw
      exact ⟨w, rfl, hmemw, hpw⟩

/-- C5 witness: three mover pieces on the bottom row at columns 1..3
with the whole legal set; the first winning column in ascending order
is 0 and is returned. -/
theorem find_winning_move_first_win_witness :
    find_winning_move bottom_row_board [0, 1, 2, 3, 4, 5, 6] 0 = some 0 :=
  ((find_winning_move_first_win bottom_row_board [0, 1, 2, 3, 4, 5, 6] 0 (by decide)).1 0).2
    ⟨by decide, ⟨5, by decide, by decide⟩, fun x hx hlt => absurd hlt (by omega)⟩

/-! ### The move selector (C1, C2, C8, C9) -/

theorem mem_get_valid_actions {mask : List Bool} {c : Nat} :
    c ∈ get_valid_actions mask ↔ c < mask.length ∧ mask.getD c false = true := by
  unfold get_valid_actions
  rw [List.mem_filter, List.mem_range]

theorem get_valid_actions_sorted (mask : List Bool) :
    (get_valid_actions mask).Sorted (· < ·) :=
  (List.pairwise_lt_range _).filter _

theorem find?_eq_head?_filter {p : Nat → Bool} :
    ∀ l : List Nat, l.find? p = (l.filter p).head? := by
  intro l
  induction l with
  | nil => rfl
  | cons a t ih =>
    cases hp : p a with
    | true =>
      rw [List.find?_cons_of_pos _ hp, List.filter_cons_of_pos hp, List.head?_cons]
    | false =>
      rw [List.find?_cons_of_neg _ (by simp [hp]), List.filter_cons_of_neg (by simp [hp]), ih]

theorem center_mem_of_lt {v : Nat} (hv : v < 7) : v ∈ center_preference := by
  interval_cases v <;> decide

theorem center_find_isSome {mask : List Bool} (h7 : mask.length = 7)
    (hne : get_valid_actions mask ≠ []) :
    ∃ c, (center_preference.find? fun col => (get_valid_actions mask).contains col) = some c := by
  obtain ⟨v, hv⟩ := List.exists_mem_of_ne_nil _ hne
  have hv7 : v < 7 := by
    have := mem_get_valid_actions.1 hv
    omega
  rw [← Option.isSome_iff_exists, List.find?_isSome]
  exact ⟨v, center_mem_of_lt hv7, List.elem_eq_true_of_mem hv⟩

theorem choose_action_mem (b : Board) (mask : List Bool) (pick : List Nat → Nat)
    (h7 : mask.length = 7) (hne : get_valid_actions mask ≠ []) :
    ∃ c, choose_action b mask pick = some c ∧ c ∈ get_valid_actions mask := by
  unfold choose_action
  simp only []
  cases h0 : find_winning_move b (get_valid_actions mask) 0 with
  | some c => exact ⟨c, rfl, List.mem_of_find?_eq_some h0⟩
  | none =>
    cases h1 : find_winning_move b (get_valid_actions mask) 1 with
    | some c => exact ⟨c, rfl, List.mem_of_find?_eq_some h1⟩
    | none =>
      cases h2 : (get_valid_actions mask).find? fun col => creates_double_threat b col 0 with
      | some c => exact ⟨c, rfl, List.mem_of_find?_eq_some h2⟩
      | none =>
        cases h3 : (get_valid_actions mask).find? fun col => creates_double_threat b col 1 with
        | some c => exact ⟨c, rfl, List.mem_of_find?_eq_some h3⟩
        | none =>
          cases h4 : center_preference.find? fun col => (get_valid_actions mask).contains col with
          | some c =>
            have hcont := List.find?_some h4
            exact ⟨c, rfl, List.mem_of_elem_eq_true hcont⟩
          | none =>
            obtain ⟨c, hc⟩ := center_find_isSome h7 hne
            rw [h4] at hc
            cases hc

/-- C1: `choose_action` implements the fixed priority policy over the
current board and legal-column set: (1) the mover's winning column when
one exists — in particular, when both the mover and the opponent have an
immediate winning column, the mover's column is returned; else (2) the
column blocking the opponent's immediate win; else (3) the first legal
column (ascending) creating a mover double threat; else (4) the first
legal column (ascending) creating an opponent double threat; else
(5) the first legal column in the fixed preference order [3,2,4,1,5,0,6];
and on the empty board with all columns legal it returns column 3. -/
theorem choose_action_priority_policy (b : Board) (mask : List Bool)
    (pick : List Nat → Nat) (h7 : mask.length = 7) :
    (∀ w, find_winning_move b (get_valid_actions mask) 0 = some w →
      choose_action b mask pick = some w) ∧
    (find_winning_move b (get_valid_actions mask) 0 = none →
      ∀ w, find_winning_move b (get_valid_actions mask) 1 = some w →
        choose_action b mask pick = some w) ∧
    (find_winning_move b (get_valid_actions mask) 0 = none →
      find_winning_move b (get_valid_actions mask) 1 = none →
      ∀ c, c ∈ get_valid_actions mask → creates_double_threat b c 0 = true →
        (∀ x ∈ get_valid_actions mask, x < c → creates_double_threat b x 0 = false) →
        choose_action b mask pick = some c) ∧
    (find_winning_move b (get_valid_actions mask) 0 = none →
      find_winning_move b (get_valid_actions mask) 1 = none →
      (∀ x ∈ get_valid_actions mask, creates_double_threat b x 0 = false) →
      ∀ c, c ∈ get_valid_actions mask → creates_double_threat b c 1 = true →
        (∀ x ∈ get_valid_actions mask, x < c → creates_double_threat b x 1 = false) →
        choose_action b mask pick = some c) ∧
    (find_winning_move b (get_valid_actions mask) 0 = none →
      find_winning_move b (get_valid_actions mask) 1 = none →
      (∀ x ∈ get_valid_actions mask, creates_double_threat b x 0 = false) →
      (∀ x ∈ get_valid_actions mask, creates_double_threat b x 1 = false) →
      choose_action b mask pick =
        (center_preference.filter fun c => (get_valid_actions mask).contains c).head?) ∧
    choose_action empty_board (List.replicate 7 true) pick = some 3 := by
  refine ⟨?_, ?_, ?_, ?_, ?_, ?_⟩
  · intro w hw
    unfold choose_action
    simp only []
    rw [hw]
  · intro h0 w hw
    unfold choose_action
    simp only []
    rw [h0, hw]
  · intro h0 h1 c hc hdt hmin
    have hfind : ((get_valid_actions mask).find? fun col => creates_double_threat b col 0) =
        some c := by
      rw [find?_sorted_some (get_valid_actions_sorted mask) c]
      exact ⟨hc, hdt, hmin⟩
    unfold choose_action
    simp only []
    rw [h0, h1, hfind]
  · intro h0 h1 hnd0 c hc hdt hmin
    have hn2 : ((get_valid_actions mask).find? fun col => creates_double_threat b col 0) =
        none := List.find?_eq_none.2 fun x hx => by simp [hnd0 x hx]
    have hfind : ((get_valid_actions mask).find? fun col => creates_double_threat b col 1) =
        some c := by
      rw [find?_sorted_some (get_valid_actions_sorted mask) c]
      exact ⟨hc, hdt, hmin⟩
    unfold choose_action
    simp only []
    rw [h0, h1, hn2, hfind]
  · intro h0 h1 hnd0 hnd1
    have hn2 : ((get_valid_actions mask).find? fun col => creates_double_threat b col 0) =
        none := List.find?_eq_none.2 fun x hx => by simp [hnd0 x hx]
    have hn3 : ((get_valid_actions mask).find? fun col => creates_double_threat b col 1) =
        none := List.find?_eq_none.2 fun x hx => by simp [hnd1 x hx]
    unfold choose_action
    simp only []
    rw [h0, h1, hn2, hn3, find?_eq_head?_filter]
    cases hh : (center_preference.filter fun c => (get_valid_actions mask).contains c).head? with
    | some c => rfl
    | none =>
      have hv : get_valid_actions mask = [] := by
        by_contra hvne
        obtain ⟨c, hc⟩ := center_find_isSome h7 hvne
        rw [find?_eq_head?_filter, hh] at hc
        cases hc
      rw [hv]
  · rfl

/-- C1 witness: on the empty board with all seven columns legal the
selector returns column 3. -/
theorem choose_action_priority_policy_witness :
    choose_action empty_board (List.replicate 7 true) (fun l => l.headD 0) = some 3 :=
  (choose_action_priority_policy empty_board (List.replicate 7 true) (fun l => l.headD 0)
    (by decide)).2.2.2.2.2

/-- C2: with a 7-entry mask holding at least one true entry, the chosen
column is in [0,6] and legal; consequently a mask with exactly one true
entry forces that column, regardless of board content. -/
theorem choose_action_mask_safety (b : Board) (mask : List Bool) (pick : List Nat → Nat)
    (h7 : mask.length = 7) (hne : ∃ c, c < 7 ∧ mask.getD c false = true) :
    (∃ c, choose_action b mask pick = some c ∧ c < 7 ∧ mask.getD c false = true) ∧
    (∀ c0, c0 < 7 → mask.getD c0 false = true →
      (∀ x, x < 7 → mask.getD x false = true → x = c0) →
      choose_action b mask pick = some c0) := by
  obtain ⟨cw, hcw7, hcwt⟩ := hne
  have hmem : cw ∈ get_valid_actions mask := mem_get_valid_actions.2 ⟨by omega, hcwt⟩
  have hvne : get_valid_actions mask ≠ [] := fun h => by rw [h] at hmem; cases hmem
  obtain ⟨c, hc, hcm⟩ := choose_action_mem b mask pick h7 hvne
  have hcprop := mem_get_valid_actions.1 hcm
  constructor
  · exact ⟨c, hc, by omega, hcprop.2⟩
  · intro c0 h07 h0t huniq
    have heq : c = c0 := huniq c (by omega) hcprop.2
    rw [hc, heq]

/-- C2 witness: with mask [0,0,0,0,0,0,1] only column 6 is legal and it
is returned. -/
theorem choose_action_mask_safety_witness :
    choose_action empty_board [false, false, false, false, false, false, true]
      (fun l => l.headD 0) = some 6 :=
  (choose_action_mask_safety empty_board [false, false, false, false, false, false, true]
    (fun l => l.headD 0) (by decide) ⟨6, by decide, by decide⟩).2 6 (by decide) (by decide)
    (by intro x hx ht; interval_cases x <;> revert ht <;> decide)

/-- C8: when the action mask has no true entry the selector reaches the
final `random.choice` on an empty list, which raises (modelled `none`)
instead of returning a column. -/
theorem choose_action_no_legal_error (b : Board) (mask : List Bool) (pick : List Nat → Nat)
    (hempty : ∀ c, mask.getD c false = false) :
    choose_action b mask pick = none := by
  have hv : get_valid_actions mask = [] := by
    unfold get_valid_actions
    rw [List.filter_eq_nil_iff]
    intro a ha
    simpa [List.getD] using hempty a
  unfold choose_action
  simp only []
  rw [hv]
  rfl

/-- C8 witness: the all-false mask yields the error outcome. -/
theorem choose_action_no_legal_error_witness :
    choose_action empty_board (List.replicate 7 false) (fun l => l.headD 0) = none :=
  choose_action_no_legal_error empty_board (List.replicate 7 false) (fun l => l.headD 0)
    (by
      intro c
      by_cases h : c < 7
      · interval_cases c <;> rfl
      · exact List.getD_eq_default _ _ (by simp; omega))

/-- C9: the selector is deterministic whenever at least one column is
legal: the random fallback of rule 6 is unreachable because rule 5's
preference list enumerates all seven columns, so the choice does not
depend on the random source. -/
theorem choose_action_deterministic (b : Board) (mask : List Bool)
    (pick1 pick2 : List Nat → Nat) (h7 : mask.length = 7)
    (hne : ∃ c, c < 7 ∧ mask.getD c false = true) :
    choose_action b mask pick1 = choose_action b mask pick2 := by
  obtain ⟨cw, hcw7, hcwt⟩ := hne
  have hmem : cw ∈ get_valid_actions mask := mem_get_valid_actions.2 ⟨by omega, hcwt⟩
  have hvne : get_valid_actions mask ≠ [] := fun h => by rw [h] at hmem; cases hmem
  unfold choose_action
  simp only []
  cases h0 : find_winning_move b (get_valid_actions mask) 0 with
  | some c => rfl
  | none =>
    cases h1 : find_winning_move b (get_valid_actions mask) 1 with
    | some c => rfl
    | none =>
      cases h2 : (get_valid_actions mask).find? fun col => creates_double_threat b col 0 with
      | some c => rfl
      | none =>
        cases h3 : (get_valid_actions mask).find? fun col => creates_double_threat b col 1 with
        | some c => rfl
        | none =>
          cases h4 : center_preference.find? fun col => (get_valid_actions mask).contains col with
          | some c => rfl
          | none =>
            obtain ⟨c, hc⟩ := center_find_isSome h7 hvne
            rw [h4] at hc
            cases hc

/-- C9 witness: two different random sources give the same column. -/
theorem choose_action_deterministic_witness :
    choose_action empty_board (List.replicate 7 true) (fun l => l.headD 0) =
      choose_action empty_board (List.replicate 7 true) (fun l => 6) :=
  choose_action_deterministic empty_board (List.replicate 7 true) (fun l => l.headD 0)
    (fun l => 6) (by decide) ⟨3, by decide, by decide⟩

/-! ### Frame property: the caller's board is never mutated (C7) -/

/-- State-passing reading of `_find_winning_move`: the caller's board
is threaded through the loop and handed back; every write targets the
private copy made by `board_copy`. -/
def find_winning_move_st (b : Board) (valid_actions : List Nat) (ch : Fin 2) :
    Option Nat × Board :=
  match valid_actions with
  | [] => (none, b)
  | col :: rest =>
    match get_next_row b col with
    | none => find_winning_move_st b rest ch
    | some row =>
      if check_win_from_position (set_cell (board_copy b) row col ch) row col ch then
        (some col, b)
      else find_winning_move_st b rest ch

/-- State-passing reading of `_creates_double_threat`. -/
def creates_double_threat_st (b : Board) (col : Nat) (ch : Fin 2) : Bool × Board :=
  match get_next_row b col with
  | none => (false, b)
  | some row =>
    (decide (2 ≤ (List.range 7).countP
      (second_win_pred (set_cell (board_copy b) row col ch) ch)), b)

/-- State-passing reading of the rule-3/rule-4 loops of `choose_action`,
threading the board through the double-threat tests. -/
def first_double_threat_st (b : Board) (cols : List Nat) (ch : Fin 2) :
    Option Nat × Board :=
  match cols with
  | [] => (none, b)
  | c :: rest =>
    match creates_double_threat_st b c ch with
    | (true, b1) => (some c, b1)
    | (false, b1) => first_double_threat_st b1 rest ch

/-- State-passing reading of `choose_action`, threading the board
through every rule in order. -/
def choose_action_st (b : Board) (mask : List Bool) (pick : List Nat → Nat) :
    Option Nat × Board :=
  let valid_actions := get_valid_actions mask
  match find_winning_move_st b valid_actions 0 with
  | (some c, b1) => (some c, b1)
  | (none, b1) =>
    match find_winning_move_st b1 valid_actions 1 with
    | (some c, b2) => (some c, b2)
    | (none, b2) =>
      match first_double_threat_st b2 valid_actions 0 with
      | (some c, b3) => (some c, b3)
      | (none, b3) =>
        match first_double_threat_st b3 valid_actions 1 with
        | (some c, b4) => (some c, b4)
        | (none, b4) =>
          match center_preference.find? fun col => valid_actions.contains col with
          | some c => (some c, b4)
          | none =>
            match valid_actions with
            | [] => (none, b4)
            | _ => (some (pick valid_actions), b4)

theorem find_winning_move_st_frame (b : Board) (ch : Fin 2) :
    ∀ valid_actions : List Nat, (find_winning_move_st b valid_actions ch).2 = b := by
  intro l
  induction l with
  | nil => rfl
  | cons a t ih =>
    show (match get_next_row b (a : Int) with
      | none => find_winning_move_st b t ch
      | some row =>
        if check_win_from_position (set_cell (board_copy b) row (a : Int) ch) row (a : Int) ch
        then ((some a : Option Nat), b)
        else find_winning_move_st b t ch).2 = b
    cases get_next_row b (a : Int) with
    | none => exact ih
    | some row =>
      show (if check_win_from_position (set_cell (board_copy b) row (a : Int) ch) row (a : Int) ch
        then ((some a : Option Nat), b)
        else find_winning_move_st b t ch).2 = b
      by_cases hcw : check_win_from_position (set_cell (board_copy b) row (a : Int) ch)
          row (a : Int) ch = true
      · rw [if_pos hcw]
      · rw [if_neg hcw]
        exact ih

theorem creates_double_threat_st_frame (b : Board) (col : Nat) (ch : Fin 2) :
    (creates_double_threat_st b col ch).2 = b := by
  show (match get_next_row b (col : Int) with
    | none => ((false : Bool), b)
    | some row =>
      ((decide (2 ≤ (List.range 7).countP
        (second_win_pred (set_cell (board_copy b) row (col : Int) ch) ch)) : Bool), b)).2 = b
  cases get_next_row b (col : Int) <;> rfl

theorem first_double_threat_st_frame (ch : Fin 2) :
    ∀ (cols : List Nat) (b : Board), (first_double_threat_st b cols ch).2 = b := by
  intro cols
  induction cols with
  | nil => intro b; rfl
  | cons a t ih =>
    intro b
    show (match creates_double_threat_st b a ch with
      | (true, b1) => ((some a : Option Nat), b1)
      | (false, b1) => first_double_threat_st b1 t ch).2 = b
    cases hp : creates_double_threat_st b a ch with
    | mk fst snd =>
      have hsnd : snd = b := by
        rw [← creates_double_threat_st_frame b a ch, hp]
      cases fst
      · show (first_double_threat_st snd t ch).2 = b
        rw [ih snd]
        exact hsnd
      · exact hsnd

theorem choose_action_st_frame (b : Board) (mask : List Bool) (pick : List Nat → Nat) :
    (choose_action_st b mask pick).2 = b := by
  unfold choose_action_st
  simp only []
  split
  next c b1 heq =>
    have hf := find_winning_move_st_frame b 0 (get_valid_actions mask)
    rw [heq] at hf
    exact hf
  next b1 heq =>
    have hb1 : b1 = b := by
      have hf := find_winning_move_st_frame b 0 (get_valid_actions mask)
      rw [heq] at hf
      exact hf
    split
    next c b2 heq2 =>
      have hf := find_winning_move_st_frame b1 1 (get_valid_actions mask)
      rw [heq2] at hf
      exact hf.trans hb1
    next b2 heq2 =>
      have hb2 : b2 = b := by
        have hf := find_winning_move_st_frame b1 1 (get_valid_actions mask)
        rw [heq2] at hf
        exact hf.trans hb1
      split
      next c b3 heq3 =>
        have hf := first_double_threat_st_frame 0 (get_valid_actions mask) b2
        rw [heq3] at hf
        exact hf.trans hb2
      next b3 heq3 =>
        have hb3 : b3 = b := by
          have hf := first_double_threat_st_frame 0 (get_valid_actions mask) b2
          rw [heq3] at hf
          exact hf.trans hb2
        split
        next c b4 heq4 =>
          have hf := first_double_threat_st_frame 1 (get_valid_actions mask) b3
          rw [heq4] at hf
          exact hf.trans hb3
        next b4 heq4 =>
          have hb4 : b4 = b := by
            have hf := first_double_threat_st_frame 1 (get_valid_actions mask) b3
            rw [heq4] at hf
            exact hf.trans hb3
          split
          next c heq5 => exact hb4
          next heq5 =>
            split
            next => exact hb4
            next x xs => exact hb4

/-! The state-passing versions compute the same answers as the pure
transcriptions used by the other claims. -/

theorem creates_double_threat_st_agree (b : Board) (col : Nat) (ch : Fin 2) :
    (creates_double_threat_st b col ch).1 = creates_double_threat b col ch := by
  show (match get_next_row b (col : Int) with
    | none => ((false : Bool), b)
    | some row => ((decide (2 ≤ (List.range 7).countP
        (second_win_pred (set_cell (board_copy b) row (col : Int) ch) ch)) : Bool), b)).1 =
    creates_double_threat b col ch
  unfold creates_double_threat
  cases get_next_row b (col : Int) <;> rfl

theorem find_winning_move_st_agree (b : Board) (ch : Fin 2) :
    ∀ valid_actions : List Nat,
      (find_winning_move_st b valid_actions ch).1 = find_winning_move b valid_actions ch := by
  intro l
  induction l with
  | nil => rfl
  | cons a t ih =>
    have hrhs : find_winning_move b (a :: t) ch =
        match is_winning_col b ch a with
        | true => some a
        | false => find_winning_move b t ch := List.find?_cons
    rw [hrhs]
    show (match get_next_row b (a : Int) with
      | none => find_winning_move_st b t ch
      | some row =>
        if check_win_from_position (set_cell (board_copy b) row (a : Int) ch) row (a : Int) ch
        then ((some a : Option Nat), b)
        else find_winning_move_st b t ch).1 =
      match is_winning_col b ch a with
      | true => some a
      | false => find_winning_move b t ch
    unfold is_winning_col
    cases hr : get_next_row b (a : Int) with
    | none => exact ih
    | some row =>
      show (if check_win_from_position (set_cell (board_copy b) row (a : Int) ch) row (a : Int) ch
        then ((some a : Option Nat), b)
        else find_winning_move_st b t ch).1 =
        match check_win_from_position (set_cell (board_copy b) row (a : Int) ch)
            row (a : Int) ch with
        | true => some a
        | false => find_winning_move b t ch
      by_cases hcw : check_win_from_position (set_cell (board_copy b) row (a : Int) ch)
          row (a : Int) ch = true
      · rw [if_pos hcw, hcw]
      · rw [if_neg hcw, Bool.eq_false_iff.2 hcw]
        exact ih

theorem first_double_threat_st_agree (ch : Fin 2) :
    ∀ (cols : List Nat) (b : Board),
      (first_double_threat_st b cols ch).1 =
        cols.find? fun col => creates_double_threat b col ch := by
  intro cols
  induction cols with
  | nil => intro b; rfl
  | cons a t ih =>
    intro b
    have hrhs : ((a :: t).find? fun col => creates_double_threat b col ch) =
        match creates_double_threat b a ch with
        | true => some a
        | false => t.find? fun col => creates_double_threat b col ch := List.find?_cons
    rw [hrhs]
    show (match creates_double_threat_st b a ch with
      | (true, b1) => ((some a : Option Nat), b1)
      | (false, b1) => first_double_threat_st b1 t ch).1 =
      match creates_double_threat b a ch with
      | true => some a
      | false => t.find? fun col => creates_double_threat b col ch
    cases hp : creates_double_threat_st b a ch with
    | mk fst snd =>
      have hfst : fst = creates_double_threat b a ch := by
        rw [← creates_double_threat_st_agree b a ch, hp]
      have hsnd : snd = b := by
        rw [← creates_double_threat_st_frame b a ch, hp]
      rw [← hfst]
      cases fst
      · show (first_double_threat_st snd t ch).1 =
          t.find? fun col => creates_double_threat b col ch
        rw [hsnd]
        exact ih b
      · rfl

theorem choose_action_st_agree (b : Board) (mask : List Bool) (pick : List Nat → Nat) :
    (choose_action_st b mask pick).1 = choose_action b mask pick := by
  unfold choose_action_st choose_action
  simp only []
  split
  next c b1 heq =>
    have h0 : find_winning_move b (get_valid_actions mask) 0 = some c := by
      rw [← find_winning_move_st_agree b 0 (get_valid_actions mask), heq]
    rw [h0]
  next b1 heq =>
    have h0 : find_winning_move b (get_valid_actions mask) 0 = none := by
      rw [← find_winning_move_st_agree b 0 (get_valid_actions mask), heq]
    have hb1 : b1 = b := by
      have hf := find_winning_move_st_frame b 0 (get_valid_actions mask)
      rw [heq] at hf
      exact hf
    rw [hb1]
    rw [h0]
    split
    next c b2 heq2 =>
      have h1 : find_winning_move b (get_valid_actions mask) 1 = some c := by
        rw [← find_winning_move_st_agree b 1 (get_valid_actions mask), heq2]
      rw [h1]
    next b2 heq2 =>
      have h1 : find_winning_move b (get_valid_actions mask) 1 = none := by
        rw [← find_winning_move_st_agree b 1 (get_valid_actions mask), heq2]
      have hb2 : b2 = b := by
        have hf := find_winning_move_st_frame b 1 (get_valid_actions mask)
        rw [heq2] at hf
        exact hf
      rw [hb2]
      rw [h1]
      split
      next c b3 heq3 =>
        have h2 : ((get_valid_actions mask).find? fun col => creates_double_threat b col 0) =
            some c := by
          rw [← first_double_threat_st_agree 0 (get_valid_actions mask) b, heq3]
        rw [h2]
      next b3 heq3 =>
        have h2 : ((get_valid_actions mask).find? fun col => creates_double_threat b col 0) =
            none := by
          rw [← first_double_threat_st_agree 0 (get_valid_actions mask) b, heq3]
        have hb3 : b3 = b := by
          have hf := first_double_threat_st_frame 0 (get_valid_actions mask) b
          rw [heq3] at hf
          exact hf
        rw [hb3]
        rw [h2]
        split
        next c b4 heq4 =>
          have h3 : ((get_valid_actions mask).find? fun col => creates_double_threat b col 1) =
              some c := by
            rw [← first_double_threat_st_agree 1 (get_valid_actions mask) b, heq4]
          rw [h3]
        next b4 heq4 =>
          have h3 : ((get_valid_actions mask).find? fun col => creates_double_threat b col 1) =
              none := by
            rw [← first_double_threat_st_agree 1 (get_valid_actions mask) b, heq4]
          have hb4 : b4 = b := by
            have hf := first_double_threat_st_frame 1 (get_valid_actions mask) b
            rw [heq4] at hf
            exact hf
          rw [hb4]
          rw [h3]
          split
          next c heq5 => simp only [heq5]
          next heq5 =>
            simp only [heq5]
            split
            next => rfl
            next x xs => rfl

/-- C7: in the state-passing reading of the three operations, every
hypothetical placement is applied to the private copy produced by
`board_copy`, and the board handed back to the caller is exactly the
board passed in. -/
theorem no_mutation_frame (b : Board) (valid_actions : List Nat) (col : Nat)
    (mask : List Bool) (pick : List Nat → Nat) (ch : Fin 2) :
    (find_winning_move_st b valid_actions ch).2 = b ∧
    (creates_double_threat_st b col ch).2 = b ∧
    (choose_action_st b mask pick).2 = b :=
  ⟨find_winning_move_st_frame b ch valid_actions,
    creates_double_threat_st_frame b col ch,
    choose_action_st_frame b mask pick⟩
